import Mathlib

/-!  Verification of the Zettelkasten → Obsidian note converter
     (`convert_to_obsidian.py`): a shallow embedding of its filename parsing,
     metadata extraction, link rewriting, front-matter emission and driver,
     together with theorems settling the specification's claims.

     Strings are modelled as `List Char`.  The script's regexes use ASCII
     character classes here: `\d` is `Char.isDigit`, `\s` is `pyIsSpace`
     (the six ASCII whitespace characters matched by Python), `\w` is
     `pyIsWord`.  File contents are modelled as text; `splitlines(keepends=True)`
     is modelled for LF line endings.  -/

abbrev Str := List Char

/-- The six ASCII whitespace characters matched by Python's `\s` and stripped
by `str.strip()`. -/
def pyIsSpace (c : Char) : Bool :=
  c = ' ' || c = '\t' || c = '\n' || c = '\r' || c = '\x0b' || c = '\x0c'

/-- Word characters, as matched by `\w` in the keyword regex. -/
def pyIsWord (c : Char) : Bool := c.isAlphanum || c = '_'

/-- `str.strip()`: remove leading and trailing whitespace. -/
def pyStrip (l : Str) : Str :=
  ((l.dropWhile pyIsSpace).reverse.dropWhile pyIsSpace).reverse

/-- `pathlib.Path.stem`: the final path component with its last suffix
removed; the suffix is `name[i:]` for the last dot index `i` when
`0 < i < len(name) - 1`. -/
def pyStem (fn : Str) : Str :=
  match fn.reverse.findIdx? (fun c => c = '.') with
  | none => fn
  | some j =>
    let i := fn.length - 1 - j
    if 0 < i ∧ i < fn.length - 1 then fn.take i else fn

/-- Python exceptions, as far as the script distinguishes them: the
`ValueError` raised by `parse_filename` (and caught by the driver), and
everything else. -/
inductive PyErr where
  | valueError
  | otherError
deriving DecidableEq

/-- `re.match(r"(\d+)\s+(.*)", name)` applied to a file's stem, as in
`parse_filename`: a nonempty run of digits, a nonempty run of whitespace,
then `.*` (greedy, stopping at a newline; `re.match` needs no full match).
On failure a `ValueError` is raised. -/
def parseStem (name : Str) : Except PyErr (Str × Str) :=
  let ds := name.takeWhile Char.isDigit
  if ds.isEmpty then .error .valueError
  else
    let r1 := name.drop ds.length
    let ws := r1.takeWhile pyIsSpace
    if ws.isEmpty then .error .valueError
    else .ok (ds, (r1.drop ws.length).takeWhile (fun c => c ≠ '\n'))

/-- `parse_filename`: extract ID and title from the Zettelkasten filename's
stem. -/
def parse_filename (fn : Str) : Except PyErr (Str × Str) :=
  parseStem (pyStem fn)

/-- A YAML value as the script produces them: a scalar string or a list of
strings (the `tags` and `aliases` sequences). -/
inductive YVal where
  | s : Str → YVal
  | l : List Str → YVal
deriving DecidableEq, Inhabited

/-- The metadata map `md`: a Python `dict`, i.e. an insertion-ordered
association list. -/
abbrev MData := List (Str × YVal)

/-- `md[k] = v`: update in place if the key exists (keeping its position),
otherwise append at the end, as Python dicts do. -/
def dictSet (m : MData) (k : Str) (v : YVal) : MData :=
  if m.any (fun kv => kv.1 == k) then
    m.map (fun kv => if kv.1 == k then (k, v) else kv)
  else m ++ [(k, v)]

/-- `md.setdefault(k, v)`: insert (at the end) only if the key is absent. -/
def dictSetdefault (m : MData) (k : Str) (v : YVal) : MData :=
  if m.any (fun kv => kv.1 == k) then m else m ++ [(k, v)]

/-- Dictionary lookup. -/
def dictGet (m : MData) (k : Str) : Option YVal :=
  (m.find? (fun kv => kv.1 == k)).map (fun kv => kv.2)

/-- One scan step of `re.findall(r"#(\w+)", L)` with fuel: at a `#` followed
by at least one word character, the maximal word run is one match and the
scan resumes after it; otherwise the scan advances one character. -/
def ftF : Nat → Str → List Str
  | 0, _ => []
  | _ + 1, [] => []
  | f + 1, c :: cs =>
    if c = '#' then
      let w := cs.takeWhile pyIsWord
      if w.isEmpty then ftF f cs
      else w :: ftF f (cs.drop w.length)
    else ftF f cs

/-- `re.findall(r"#(\w+)", L)`: the keyword tags of a `Keywords:` line. -/
def findTags (l : Str) : List Str := ftF l.length l

/-- `splitlines(keepends=True)` for LF line endings: each element keeps its
trailing newline; a final fragment without a newline is kept as-is. -/
def slGo (cur : Str) : Str → List Str
  | [] => if cur.isEmpty then [] else [cur.reverse]
  | c :: cs =>
    if c = '\n' then (cur.reverse ++ ['\n']) :: slGo [] cs
    else slGo (c :: cur) cs

/-- `content.splitlines(keepends=True)` (LF model). -/
def splitKeepNL (s : Str) : List Str := slGo [] s

/-- The scanning loop of `parse_metadata`: `Title:`/`Date:` lines update the
map (remainder after the first colon, stripped); the first `Keywords:` line
stores the tags and ends the scan, returning the remaining lines as the body.
If the scan never meets a `Keywords:` line, `none` is returned (the caller
then uses `body_start = 0`, i.e. the whole file). -/
def parseMdAux (md : MData) : List Str → MData × Option (List Str)
  | [] => (md, none)
  | L :: rest =>
    if ("Title:".toList).isPrefixOf L then
      parseMdAux (dictSet md ("title".toList) (.s (pyStrip (L.drop 6)))) rest
    else if ("Date:".toList).isPrefixOf L then
      parseMdAux (dictSet md ("date".toList) (.s (pyStrip (L.drop 5)))) rest
    else if ("Keywords:".toList).isPrefixOf L then
      (dictSet md ("tags".toList) (.l (findTags L)), some rest)
    else
      parseMdAux md rest

/-- `parse_metadata(lines)`: the metadata map and the body lines
(`lines[body_start:]`, where `body_start` stays `0` when no `Keywords:`
line was found). -/
def parse_metadata (lines : List Str) : MData × List Str :=
  match parseMdAux [] lines with
  | (md, some body) => (md, body)
  | (md, none) => (md, lines)

/-- Modelled from the spec: `build_frontmatter` delegates scalar formatting
to the third-party `yaml.safe_dump(md, sort_keys=False)`, which is not part
of this repository.  Per §4.4 it is modelled as an insertion-order-preserving
block serializer that renders `tags`/`aliases` as ordered sequences. -/
def yamlEntry : Str × YVal → Str
  | (k, .s v) => k ++ (": ".toList) ++ v ++ ("\n".toList)
  | (k, .l vs) => k ++ (":\n".toList) ++ (vs.map (fun v => ("- ".toList) ++ v ++ ("\n".toList))).flatten

/-- Modelled from the spec: the YAML body emitted for the metadata map,
one entry per key in insertion order. -/
def yamlDump (m : MData) : Str := (m.map yamlEntry).flatten

/-- `build_frontmatter(md)`: `"---\n" + yaml.safe_dump(md, sort_keys=False) + "---\n"`. -/
def build_frontmatter (md : MData) : Str :=
  ("---\n".toList) ++ yamlDump md ++ ("---\n".toList)

/-- The tail of the backlink regex after `Backlinks?:` has been consumed:
`\s*\[\[\d+\]\]\s*$` (a nonempty digit run inside double brackets, then only
whitespace up to the end; `$` before a final newline is subsumed because
`\s*` also matches the newline). -/
def blAfterLabel (r : Str) : Bool :=
  let r3 := r.dropWhile pyIsSpace
  if r3.take 2 = ['[', '['] then
    let ds := (r3.drop 2).takeWhile Char.isDigit
    if ds.isEmpty then false
    else if ((r3.drop 2).drop ds.length).take 2 = [']', ']'] then
      (((r3.drop 2).drop ds.length).drop 2).all pyIsSpace
    else false
  else false

/-- `re.match(r"^\s*Backlinks?:\s*\[\[\d+\]\]\s*$", line)`: the backlink
annotation pattern of `convert_note`. -/
def backlinkMatch (l : Str) : Bool :=
  let r := l.dropWhile pyIsSpace
  if ("Backlinks:".toList).isPrefixOf r then blAfterLabel (r.drop 10)
  else if ("Backlink:".toList).isPrefixOf r then blAfterLabel (r.drop 9)
  else false

/-- `body = [line for line in body if not backlink_pattern.match(line)]`. -/
def stripBacklinks (body : List Str) : List Str :=
  body.filter (fun L => !backlinkMatch L)

/-- `glob(f"{link_id}*.md")` applied to one directory entry: the name starts
with the id and ends with `.md` (with the `*` matching the part between). -/
def globIdMd (id fn : Str) : Bool :=
  id.isPrefixOf fn && (".md".toList).isSuffixOf fn && id.length + 3 ≤ fn.length

/-- `resolve_id_link(link_id, input_dir)`: the stem of the first directory
entry matching `glob(f"{link_id}*.md")`, or the id itself when no entry
matches. -/
def resolve_id_link (link_id : Str) (dir : List Str) : Str :=
  match dir.find? (fun fn => globIdMd link_id fn) with
  | some fp => pyStem fp
  | none => link_id

/-- `replace_id_link(match)`: `[[full|id]]` when resolution returned a
different name ("found the file"), otherwise `match.group(0)`, the original
token text. -/
def replace_id_link (dir : List Str) (ds : Str) : Str :=
  let full := resolve_id_link ds dir
  if full ≠ ds then ("[[".toList) ++ full ++ '|' :: ds ++ ("]]".toList)
  else ("[[".toList) ++ ds ++ ("]]".toList)

/-- An attempted match of `\[\[(\d{12})\]\]` at the head of the text:
two brackets, exactly twelve digits, two closing brackets; on success the
captured digits and the remaining text. -/
def tryTok (s : Str) : Option (Str × Str) :=
  if s.take 2 = ['[', '['] ∧ ((s.drop 2).take 12).length = 12
      ∧ ((s.drop 2).take 12).all Char.isDigit = true
      ∧ ((s.drop 2).drop 12).take 2 = [']', ']'] then
    some ((s.drop 2).take 12, (s.drop 2).drop 14)
  else none

/-- The left-to-right scan of `re.sub(r'\[\[(\d{12})\]\]', replace_id_link,
body_text)` with fuel: replace a match at the current position and resume
after it, otherwise advance one character. -/
def ilsF (dir : List Str) : Nat → Str → Str
  | 0, s => s
  | f + 1, s =>
    match s, tryTok s with
    | [], _ => []
    | _, some (ds, rest) => replace_id_link dir ds ++ ilsF dir f rest
    | c :: cs, none => c :: ilsF dir f cs

/-- `re.sub(r'\[\[(\d{12})\]\]', replace_id_link, body_text)`. -/
def idLinkSub (dir : List Str) (s : Str) : Str := ilsF dir s.length s

/-- Whether a `\[\[(\d{12})\]\]` match starts anywhere in the text. -/
def hasTok : Str → Bool
  | [] => false
  | c :: cs => (tryTok (c :: cs)).isSome || hasTok cs

/-- The metadata map written by `convert_note`: the scanned map, then
`md["id"]`, `md.setdefault("title", file_title)`, `md["aliases"] = [file_id]`. -/
def noteMd (fid ftitle : Str) (lines : List Str) : MData :=
  dictSet
    (dictSetdefault
      (dictSet (parse_metadata lines).1 ("id".toList) (.s fid))
      ("title".toList) (.s ftitle))
    ("aliases".toList) (.l [fid])

/-- The body text written by `convert_note`: backlink lines dropped, the rest
joined into one blob and passed through the id-link substitution. -/
def noteBody (dir : List Str) (lines : List Str) : Str :=
  idLinkSub dir (stripBacklinks (parse_metadata lines).2).flatten

/-- `convert_note(in_path, out_path)`: full conversion of one note, given the
listing of the input directory, the file's name and its content.  The written
text is frontmatter, a blank line, then the processed body. -/
def convert_note (dir : List Str) (fname content : Str) : Except PyErr Str :=
  match parse_filename fname with
  | .error e => .error e
  | .ok (fid, ftitle) =>
    let lines := splitKeepNL content
    .ok (build_frontmatter (noteMd fid ftitle lines) ++ '\n' :: noteBody dir lines)

/-- The driver's `try/except ValueError` around `convert_note`: a
`ValueError` is recovered by falling back to `orig` (the unchanged file,
flagged `false` = copied); any other exception propagates. -/
def catchNaming (r : Except PyErr Str) (orig : Str) : Except PyErr (Str × Bool) :=
  match r with
  | .ok out => .ok (out, true)
  | .error .valueError => .ok (orig, false)
  | .error .otherError => .error .otherError

/-- One iteration of the driver's file loop: convert, or fall back to a
verbatim copy exactly on `ValueError`. -/
def processFile (dir : List Str) (fname content : Str) : Except PyErr (Str × Bool) :=
  catchNaming (convert_note dir fname content) content

/-- The input directory: its flat file listing (name, content) and the
optional `media` subdirectory. -/
structure InDir where
  files : List (Str × Str)
  media : Option (List (Str × Str))
deriving DecidableEq

/-- The output directory's contents after a run. -/
structure OutDir where
  media : Option (List (Str × Str))
  files : List (Str × Str)
deriving DecidableEq

/-- `in_dir.glob("*.md")` applied to one name: ends with `.md` and is not a
hidden file (a leading-`*` glob pattern skips dotfiles). -/
def starMd (fn : Str) : Bool :=
  (".md".toList).isSuffixOf fn && !(fn.head? == some '.')

/-- The note files the driver iterates over. -/
def mdFiles (input : InDir) : List (Str × Str) :=
  input.files.filter (fun fc => starMd fc.1)

/-- The directory listing consulted by `resolve_id_link` (`in_path.parent`). -/
def dirListing (input : InDir) : List Str := input.files.map (fun fc => fc.1)

/-- `main(in_dir, out_dir)` (named `mainRun` since Lean reserves `main`): destroy any pre-existing output directory and
recreate it, copy `media` if present, then process every `*.md` file,
converting it or falling back to a verbatim copy on a `ValueError`; any other
exception aborts the run. -/
def mainRun (input : InDir) (prevOut : Option OutDir) : Except PyErr OutDir :=
  let base : OutDir :=
    match prevOut with
    | some _ => { media := none, files := [] }
    | none => { media := none, files := [] }
  let withMedia : OutDir := { base with media := input.media }
  match (mdFiles input).mapM (fun fc =>
      (processFile (dirListing input) fc.1 fc.2).map (fun r => (fc.1, r.1))) with
  | .ok outs => .ok { withMedia with files := outs }
  | .error e => .error e

/-!  ## Basic list lemmas  -/

theorem takeWhile_all_append {α} {p : α → Bool} {a : List α} (b : List α)
    (h : a.all p = true) : (a ++ b).takeWhile p = a ++ b.takeWhile p := by
  induction a with
  | nil => simp
  | cons x xs ih =>
    simp only [List.all_cons, Bool.and_eq_true] at h
    simp [List.takeWhile_cons, h.1, ih h.2]

theorem dropWhile_all_append {α} {p : α → Bool} {a : List α} (b : List α)
    (h : a.all p = true) : (a ++ b).dropWhile p = b.dropWhile p := by
  induction a with
  | nil => simp
  | cons x xs ih =>
    simp only [List.all_cons, Bool.and_eq_true] at h
    simp [List.dropWhile_cons, h.1, ih h.2]

theorem takeWhile_all_self {α} {p : α → Bool} {a : List α}
    (h : a.all p = true) : a.takeWhile p = a := by
  have := takeWhile_all_append (p := p) [] h
  simpa using this

theorem isPrefixOf_eq_true_iff {p l : Str} :
    p.isPrefixOf l = true ↔ ∃ t, l = p ++ t := by
  induction p generalizing l with
  | nil => simp [List.isPrefixOf]
  | cons a as ih =>
    cases l with
    | nil => simp [List.isPrefixOf]
    | cons b bs =>
      simp only [List.isPrefixOf, Bool.and_eq_true, beq_iff_eq, ih]
      constructor
      · rintro ⟨rfl, t, rfl⟩; exact ⟨t, rfl⟩
      · rintro ⟨t, h⟩
        injection h with h1 h2
        exact ⟨h1.symm, t, h2⟩

theorem isSuffixOf_eq_true_iff {p l : Str} :
    p.isSuffixOf l = true ↔ ∃ t, l = t ++ p := by
  unfold List.isSuffixOf
  rw [isPrefixOf_eq_true_iff]
  constructor
  · rintro ⟨t, h⟩
    refine ⟨t.reverse, ?_⟩
    have := congrArg List.reverse h
    simpa using this
  · rintro ⟨t, rfl⟩
    exact ⟨t.reverse, by simp⟩

theorem getLast?_cons_or {α} (a : α) (l : List α) :
    (a :: l).getLast? = l.getLast?.or (some a) := by
  cases l with
  | nil => rfl
  | cons b bs =>
    rw [List.getLast?_cons_cons]
    have : (b :: bs).getLast?.isSome := by
      rw [List.getLast?_isSome]; simp
    rcases Option.isSome_iff_exists.mp this with ⟨x, hx⟩
    simp [hx]

theorem getLast?_append_right {α} {l2 : List α} (l1 : List α) (h : l2 ≠ []) :
    (l1 ++ l2).getLast? = l2.getLast? := by
  induction l1 with
  | nil => simp
  | cons a as ih =>
    rw [List.cons_append, getLast?_cons_or, ih]
    have : l2.getLast?.isSome := by rw [List.getLast?_isSome]; exact h
    rcases Option.isSome_iff_exists.mp this with ⟨x, hx⟩
    simp [hx]

/-- Whitespace is never a digit. -/
theorem pyIsSpace_not_digit {c : Char} (h : pyIsSpace c = true) :
    c.isDigit = false := by
  simp only [pyIsSpace, Bool.or_eq_true, decide_eq_true_eq] at h
  rcases h with ((((h | h) | h) | h) | h) | h <;> subst h <;> decide

/-!  ## Filename parser lemmas  -/

theorem drop_takeWhile_length {α} (p : α → Bool) (l : List α) :
    l.drop (l.takeWhile p).length = l.dropWhile p := by
  induction l with
  | nil => rfl
  | cons a t ih =>
    by_cases h : p a
    · simp [List.takeWhile_cons, List.dropWhile_cons, h, ih]
    · simp [List.takeWhile_cons, List.dropWhile_cons, h]

/-- Successful match of `(\d+)\s+(.*)` on a decomposed stem: the digit and
whitespace runs are maximal, and the capture of `.*` stops at a newline. -/
theorem parseStem_ok {ds ws rest : Str} (hds : ds ≠ []) (hdd : ds.all Char.isDigit = true)
    (hws : ws ≠ []) (hwss : ws.all pyIsSpace = true)
    (hrest : ∀ c, rest.head? = some c → pyIsSpace c = false) :
    parseStem (ds ++ ws ++ rest) = .ok (ds, rest.takeWhile (fun c => c ≠ '\n')) := by
  have h1 : (ds ++ (ws ++ rest)).takeWhile Char.isDigit = ds := by
    rw [takeWhile_all_append _ hdd]
    cases ws with
    | nil => exact absurd rfl hws
    | cons w wt =>
      have hw : pyIsSpace w = true := by
        simp only [List.all_cons, Bool.and_eq_true] at hwss; exact hwss.1
      simp [List.takeWhile_cons, pyIsSpace_not_digit hw]
  have h2 : (ws ++ rest).takeWhile pyIsSpace = ws := by
    rw [takeWhile_all_append _ hwss]
    cases rest with
    | nil => simp
    | cons r rt => simp [List.takeWhile_cons, hrest r rfl]
  unfold parseStem
  rw [List.append_assoc, h1]
  simp only [List.drop_left, h2]
  simp [List.isEmpty_iff, hds, hws]

/-- `parse_filename` raises `ValueError` exactly when the stem does not
decompose as nonempty digits, nonempty whitespace, then anything. -/
theorem parseStem_error_iff {name : Str} :
    parseStem name = .error .valueError ↔
      ¬ ∃ ds ws rest, name = ds ++ ws ++ rest ∧ ds ≠ [] ∧ ds.all Char.isDigit = true
        ∧ ws ≠ [] ∧ ws.all pyIsSpace = true := by
  constructor
  · intro herr
    rintro ⟨ds, ws, rest, rfl, hds, hdd, hws, hwss⟩
    have h1 : (ds ++ (ws ++ rest)).takeWhile Char.isDigit = ds := by
      rw [takeWhile_all_append _ hdd]
      cases ws with
      | nil => exact absurd rfl hws
      | cons w wt =>
        have hw : pyIsSpace w = true := by
          simp only [List.all_cons, Bool.and_eq_true] at hwss; exact hwss.1
        simp [List.takeWhile_cons, pyIsSpace_not_digit hw]
    have h2 : (ws ++ rest).takeWhile pyIsSpace = ws ++ rest.takeWhile pyIsSpace :=
      takeWhile_all_append _ hwss
    unfold parseStem at herr
    rw [List.append_assoc, h1] at herr
    simp [List.isEmpty_iff, hds, List.drop_left, h2, hws] at herr
  · intro hno
    unfold parseStem
    rcases hd : name.takeWhile Char.isDigit with _ | ⟨d, dt⟩
    · simp
    · simp only []
      rw [← hd, drop_takeWhile_length]
      rcases hw : (name.dropWhile Char.isDigit).takeWhile pyIsSpace with _ | ⟨w, wt⟩
      · simp [hd, hw, List.isEmpty_iff]
      · exfalso
        apply hno
        have e1 : name = (d :: dt) ++ name.dropWhile Char.isDigit := by
          conv_lhs => rw [← List.takeWhile_append_dropWhile (p := Char.isDigit) (l := name)]
          rw [hd]
        have e2 : name.dropWhile Char.isDigit
            = (w :: wt) ++ (name.dropWhile Char.isDigit).dropWhile pyIsSpace := by
          conv_lhs => rw [← List.takeWhile_append_dropWhile (p := pyIsSpace)
            (l := name.dropWhile Char.isDigit)]
          rw [hw]
        refine ⟨d :: dt, w :: wt, (name.dropWhile Char.isDigit).dropWhile pyIsSpace,
          ?_, by simp, ?_, by simp, ?_⟩
        · rw [List.append_assoc, ← e2]; exact e1
        · rw [← hd]; exact List.all_takeWhile
        · rw [← hw]; exact List.all_takeWhile

/-- `Path.stem` of `<name>.md` is `<name>` for nonempty `name` (the reverse
search finds the dot of `.md` first). -/
theorem pyStem_md {name : Str} (hne : name ≠ []) :
    pyStem (name ++ (".md".toList)) = name := by
  have hmd : (".md".toList : Str) = ['.', 'm', 'd'] := rfl
  have hfind : ((name ++ (".md".toList)).reverse).findIdx? (fun c => c = '.') = some 2 := by
    have hrev : (name ++ (".md".toList)).reverse = 'd' :: 'm' :: '.' :: name.reverse := by
      rw [hmd]; simp [List.reverse_append]
    rw [hrev]
    simp [List.findIdx?_cons]
  have hlen : (name ++ (".md".toList)).length = name.length + 3 := by
    rw [hmd]; simp
  have h0 : 0 < name.length := List.length_pos.mpr hne
  unfold pyStem
  rw [hfind]
  simp only [hlen]
  have hi : name.length + 3 - 1 - 2 = name.length := by omega
  rw [hi, if_pos ⟨h0, by omega⟩]
  exact List.take_left' rfl

/-!  ## Dictionary lemmas  -/

theorem dictGet_dictSet (m : MData) (k : Str) (v : YVal) (k' : Str) :
    dictGet (dictSet m k v) k' = if k' = k then some v else dictGet m k' := by
  unfold dictSet dictGet
  by_cases hA : m.any (fun kv => kv.1 == k) = true
  · rw [if_pos hA, List.find?_map]
    have hpf : ((fun kv : Str × YVal => kv.1 == k') ∘
        (fun kv => if kv.1 == k then (k, v) else kv)) = (fun kv : Str × YVal => kv.1 == k') := by
      funext kv
      by_cases h : kv.1 = k
      · simp [h]
      · simp [h]
    rw [hpf]
    by_cases hk : k' = k
    · subst hk
      rw [if_pos rfl]
      have hex : ∃ x, x ∈ m ∧ (x.1 == k') = true := List.any_eq_true.mp hA
      rcases hf : m.find? (fun kv => kv.1 == k') with _ | kv0
      · rw [List.find?_eq_none] at hf
        obtain ⟨x, hx, hpx⟩ := hex
        exact absurd hpx (hf x hx)
      · have h1 := List.find?_some hf
        have h1e : kv0.1 = k' := by simpa using h1
        rw [hf]
        simp [h1, if_pos h1e]
    · rw [if_neg hk]
      rcases hf : m.find? (fun kv => kv.1 == k') with _ | kv0
      · simp [hf]
      · have h1 := List.find?_some hf
        have h1e : kv0.1 = k' := by simpa using h1
        have h2 : ¬ kv0.1 = k := by rw [h1e]; exact hk
        simp [hf, h2]
  · rw [if_neg hA, List.find?_append]
    have hnone : m.find? (fun kv => kv.1 == k) = none := by
      rw [List.find?_eq_none]
      intro x hx hpx
      exact hA (List.any_eq_true.mpr ⟨x, hx, hpx⟩)
    by_cases hk : k' = k
    · subst hk
      simp [hnone, List.find?]
    · have hne : ((k, v).1 == k') = false := by
        simp
        exact fun h => hk h.symm
      simp [List.find?, hne, hk]

theorem dictGet_dictSetdefault (m : MData) (k : Str) (v : YVal) (k' : Str) :
    dictGet (dictSetdefault m k v) k'
      = if k' = k then (dictGet m k).or (some v) else dictGet m k' := by
  unfold dictSetdefault dictGet
  by_cases hA : m.any (fun kv => kv.1 == k) = true
  · rw [if_pos hA]
    by_cases hk : k' = k
    · subst hk
      rw [if_pos rfl]
      have hex : ∃ x, x ∈ m ∧ (x.1 == k') = true := List.any_eq_true.mp hA
      rcases hf : m.find? (fun kv => kv.1 == k') with _ | kv0
      · rw [List.find?_eq_none] at hf
        obtain ⟨x, hx, hpx⟩ := hex
        exact absurd hpx (hf x hx)
      · simp [hf]
    · rw [if_neg hk]
  · rw [if_neg hA, List.find?_append]
    have hnone : m.find? (fun kv => kv.1 == k) = none := by
      rw [List.find?_eq_none]
      intro x hx hpx
      exact hA (List.any_eq_true.mpr ⟨x, hx, hpx⟩)
    by_cases hk : k' = k
    · subst hk
      simp [hnone, List.find?]
    · have hne : ((k, v).1 == k') = false := by
        simp
        exact fun h => hk h.symm
      simp [List.find?, hne, hk]

/-!  ## Metadata extractor lemmas  -/

/-- The lines before the first `Keywords:` line (all lines when there is
none): the region the metadata scan traverses. -/
def preKw (lines : List Str) : List Str :=
  lines.takeWhile (fun L => !("Keywords:".toList).isPrefixOf L)

/-- The `title` value the scan ends with: from the last `Title:` line before
the first `Keywords:` line. -/
def lastTitleVal (lines : List Str) : Option YVal :=
  (((preKw lines).filter (fun L => ("Title:".toList).isPrefixOf L)).getLast?).map
    (fun L => .s (pyStrip (L.drop 6)))

/-- The `date` value the scan ends with: from the last `Date:` line before
the first `Keywords:` line. -/
def lastDateVal (lines : List Str) : Option YVal :=
  (((preKw lines).filter (fun L => ("Date:".toList).isPrefixOf L)).getLast?).map
    (fun L => .s (pyStrip (L.drop 5)))

theorem isPrefixOf_head {c : Char} {p L : Str} (h : (c :: p).isPrefixOf L = true) :
    L.head? = some c := by
  rw [isPrefixOf_eq_true_iff] at h
  obtain ⟨t, rfl⟩ := h
  rfl

theorem heads_agree {a b : Char} {p q L : Str} (ha : (a :: p).isPrefixOf L = true)
    (hb : (b :: q).isPrefixOf L = true) : a = b := by
  have h1 := isPrefixOf_head ha
  have h2 := isPrefixOf_head hb
  rw [h1] at h2
  injection h2 with h3

theorem not_kw_of_title {L : Str} (h : ("Title:".toList).isPrefixOf L = true) :
    ("Keywords:".toList).isPrefixOf L = false := by
  cases hkw : ("Keywords:".toList).isPrefixOf L
  · rfl
  · exact absurd (heads_agree h hkw) (by decide)

theorem not_kw_of_date {L : Str} (h : ("Date:".toList).isPrefixOf L = true) :
    ("Keywords:".toList).isPrefixOf L = false := by
  cases hkw : ("Keywords:".toList).isPrefixOf L
  · rfl
  · exact absurd (heads_agree h hkw) (by decide)

theorem not_title_of_date {L : Str} (h : ("Date:".toList).isPrefixOf L = true) :
    ("Title:".toList).isPrefixOf L = false := by
  cases ht : ("Title:".toList).isPrefixOf L
  · rfl
  · exact absurd (heads_agree h ht) (by decide)

theorem not_date_of_title {L : Str} (h : ("Title:".toList).isPrefixOf L = true) :
    ("Date:".toList).isPrefixOf L = false := by
  cases ht : ("Date:".toList).isPrefixOf L
  · rfl
  · exact absurd (heads_agree h ht) (by decide)

theorem bool_not_true {b : Bool} (h : ¬ b = true) : b = false := by
  cases b
  · rfl
  · exact absurd rfl h

theorem parseMdAux_get_title (md : MData) (lines : List Str) :
    dictGet (parseMdAux md lines).1 ("title".toList)
      = (lastTitleVal lines).or (dictGet md ("title".toList)) := by
  induction lines generalizing md with
  | nil => simp [parseMdAux, lastTitleVal, preKw]
  | cons L rest ih =>
    simp only [parseMdAux]
    by_cases hT : ("Title:".toList).isPrefixOf L = true
    · rw [if_pos hT, ih, dictGet_dictSet, if_pos rfl]
      have hK := not_kw_of_title hT
      unfold lastTitleVal preKw
      rw [List.takeWhile_cons_of_pos (by rw [hK]; rfl), List.filter_cons_of_pos hT,
        getLast?_cons_or]
      rcases ((rest.takeWhile (fun L => !("Keywords:".toList).isPrefixOf L)).filter
          (fun L => ("Title:".toList).isPrefixOf L)).getLast? with _ | x
      · simp
      · simp
    · rw [if_neg hT]
      by_cases hD : ("Date:".toList).isPrefixOf L = true
      · rw [if_pos hD, ih, dictGet_dictSet, if_neg (by decide)]
        have hK := not_kw_of_date hD
        unfold lastTitleVal preKw
        rw [List.takeWhile_cons_of_pos (by rw [hK]; rfl),
          List.filter_cons_of_neg (by exact hT)]
      · rw [if_neg hD]
        by_cases hKw : ("Keywords:".toList).isPrefixOf L = true
        · rw [if_pos hKw]
          have h1 : dictGet ((dictSet md ("tags".toList) (.l (findTags L)), some rest)).1
              ("title".toList) = dictGet md ("title".toList) := by
            rw [dictGet_dictSet, if_neg (by decide)]
          rw [h1]
          unfold lastTitleVal preKw
          rw [List.takeWhile_cons_of_neg (by rw [hKw]; decide)]
          simp
        · rw [if_neg hKw, ih]
          unfold lastTitleVal preKw
          rw [List.takeWhile_cons_of_pos (by rw [bool_not_true hKw]; rfl),
            List.filter_cons_of_neg (by exact hT)]

theorem parseMdAux_get_date (md : MData) (lines : List Str) :
    dictGet (parseMdAux md lines).1 ("date".toList)
      = (lastDateVal lines).or (dictGet md ("date".toList)) := by
  induction lines generalizing md with
  | nil => simp [parseMdAux, lastDateVal, preKw]
  | cons L rest ih =>
    simp only [parseMdAux]
    by_cases hT : ("Title:".toList).isPrefixOf L = true
    · rw [if_pos hT, ih, dictGet_dictSet, if_neg (by decide)]
      have hK := not_kw_of_title hT
      have hD := not_date_of_title hT
      unfold lastDateVal preKw
      rw [List.takeWhile_cons_of_pos (by rw [hK]; rfl),
        List.filter_cons_of_neg (by rw [hD]; exact Bool.false_ne_true)]
    · rw [if_neg hT]
      by_cases hD : ("Date:".toList).isPrefixOf L = true
      · rw [if_pos hD, ih, dictGet_dictSet, if_pos rfl]
        have hK := not_kw_of_date hD
        unfold lastDateVal preKw
        rw [List.takeWhile_cons_of_pos (by rw [hK]; rfl), List.filter_cons_of_pos hD,
          getLast?_cons_or]
        rcases ((rest.takeWhile (fun L => !("Keywords:".toList).isPrefixOf L)).filter
            (fun L => ("Date:".toList).isPrefixOf L)).getLast? with _ | x
        · simp
        · simp
      · rw [if_neg hD]
        by_cases hKw : ("Keywords:".toList).isPrefixOf L = true
        · rw [if_pos hKw]
          have h1 : dictGet ((dictSet md ("tags".toList) (.l (findTags L)), some rest)).1
              ("date".toList) = dictGet md ("date".toList) := by
            rw [dictGet_dictSet, if_neg (by decide)]
          rw [h1]
          unfold lastDateVal preKw
          rw [List.takeWhile_cons_of_neg (by rw [hKw]; decide)]
          simp
        · rw [if_neg hKw, ih]
          unfold lastDateVal preKw
          rw [List.takeWhile_cons_of_pos (by rw [bool_not_true hKw]; rfl),
            List.filter_cons_of_neg (by exact hD)]

theorem parse_metadata_fst (lines : List Str) :
    (parse_metadata lines).1 = (parseMdAux [] lines).1 := by
  unfold parse_metadata
  rcases h : parseMdAux [] lines with ⟨md, ob⟩
  cases ob <;> simp

/-- The `title` entry of the scanned map comes from the last `Title:` line
before the first `Keywords:` line (or anywhere, absent such a line). -/
theorem parseMd_title (lines : List Str) :
    dictGet (parse_metadata lines).1 ("title".toList) = lastTitleVal lines := by
  rw [parse_metadata_fst, parseMdAux_get_title]
  have : dictGet [] ("title".toList) = none := rfl
  rw [this]
  cases lastTitleVal lines <;> rfl

/-- The `date` entry of the scanned map comes from the last `Date:` line
before the first `Keywords:` line (or anywhere, absent such a line). -/
theorem parseMd_date (lines : List Str) :
    dictGet (parse_metadata lines).1 ("date".toList) = lastDateVal lines := by
  rw [parse_metadata_fst, parseMdAux_get_date]
  have : dictGet [] ("date".toList) = none := rfl
  rw [this]
  cases lastDateVal lines <;> rfl

theorem parseMdAux_snd_none (md : MData) (lines : List Str)
    (h : ∀ L ∈ lines, ("Keywords:".toList).isPrefixOf L = false) :
    (parseMdAux md lines).2 = none := by
  induction lines generalizing md with
  | nil => rfl
  | cons L rest ih =>
    have hK : ("Keywords:".toList).isPrefixOf L = false := h L (List.mem_cons_self L rest)
    have hrest : ∀ L ∈ rest, ("Keywords:".toList).isPrefixOf L = false :=
      fun M hM => h M (List.mem_cons_of_mem L hM)
    simp only [parseMdAux]
    by_cases hT : ("Title:".toList).isPrefixOf L = true
    · rw [if_pos hT]; exact ih _ hrest
    · rw [if_neg hT]
      by_cases hD : ("Date:".toList).isPrefixOf L = true
      · rw [if_pos hD]; exact ih _ hrest
      · rw [if_neg hD, if_neg (by rw [hK]; exact Bool.false_ne_true)]
        exact ih _ hrest

/-- When no line is a `Keywords:` line, the whole file is the body. -/
theorem parse_metadata_snd_of_no_kw (lines : List Str)
    (h : ∀ L ∈ lines, ("Keywords:".toList).isPrefixOf L = false) :
    (parse_metadata lines).2 = lines := by
  unfold parse_metadata
  rcases hp : parseMdAux [] lines with ⟨md, ob⟩
  have := parseMdAux_snd_none [] lines h
  rw [hp] at this
  simp only at this
  subst this
  rfl

/-- The body returned by the extractor is a suffix of the input lines. -/
theorem parseMdAux_snd_suffix (md : MData) (lines body : List Str)
    (h : (parseMdAux md lines).2 = some body) : ∃ pre, lines = pre ++ body := by
  induction lines generalizing md with
  | nil => exact absurd h (by simp [parseMdAux])
  | cons L rest ih =>
    simp only [parseMdAux] at h
    by_cases hT : ("Title:".toList).isPrefixOf L = true
    · rw [if_pos hT] at h
      rcases ih _ h with ⟨pre, hpre⟩
      exact ⟨L :: pre, by rw [List.cons_append, ← hpre]⟩
    · rw [if_neg hT] at h
      by_cases hD : ("Date:".toList).isPrefixOf L = true
      · rw [if_pos hD] at h
        rcases ih _ h with ⟨pre, hpre⟩
        exact ⟨L :: pre, by rw [List.cons_append, ← hpre]⟩
      · rw [if_neg hD] at h
        by_cases hKw : ("Keywords:".toList).isPrefixOf L = true
        · rw [if_pos hKw] at h
          simp only at h
          injection h with h2
          exact ⟨[L], by rw [h2]; rfl⟩
        · rw [if_neg hKw] at h
          rcases ih _ h with ⟨pre, hpre⟩
          exact ⟨L :: pre, by rw [List.cons_append, ← hpre]⟩

theorem parse_metadata_snd_suffix (lines : List Str) :
    ∃ pre, lines = pre ++ (parse_metadata lines).2 := by
  unfold parse_metadata
  rcases hp : parseMdAux [] lines with ⟨md, ob⟩
  cases ob with
  | none => exact ⟨[], rfl⟩
  | some body =>
    have := parseMdAux_snd_suffix [] lines body (by rw [hp])
    simpa using this

/-!  ## Link rewriter lemmas  -/

theorem tryTok_eq_some {s ds rest : Str} :
    tryTok s = some (ds, rest) ↔
      ds.length = 12 ∧ ds.all Char.isDigit = true
        ∧ s = '[' :: '[' :: (ds ++ ']' :: ']' :: rest) := by
  constructor
  · intro h
    unfold tryTok at h
    by_cases hc : s.take 2 = ['[', '['] ∧ ((s.drop 2).take 12).length = 12
        ∧ ((s.drop 2).take 12).all Char.isDigit = true
        ∧ ((s.drop 2).drop 12).take 2 = [']', ']']
    · rw [if_pos hc] at h
      obtain ⟨hc1, hc2, hc3, hc4⟩ := hc
      injection h with h2
      injection h2 with hds hrest
      subst hds
      subst hrest
      refine ⟨hc2, hc3, ?_⟩
      have hr : s.drop 2 = (s.drop 2).take 12 ++ (']' :: ']' :: (s.drop 2).drop 14) := by
        conv_lhs => rw [← List.take_append_drop 12 (s.drop 2)]
        congr 1
        conv_lhs => rw [← List.take_append_drop 2 ((s.drop 2).drop 12)]
        rw [hc4, List.drop_drop]
        rfl
      conv_lhs => rw [← List.take_append_drop 2 s, hc1, hr]
      rfl
    · rw [if_neg hc] at h
      exact absurd h (by simp)
  · rintro ⟨hl, ha, rfl⟩
    have hdrop : ('[' :: '[' :: (ds ++ ']' :: ']' :: rest)).drop 2 = ds ++ ']' :: ']' :: rest := rfl
    have ht : (ds ++ ']' :: ']' :: rest).take 12 = ds := List.take_left' hl
    have hd : (ds ++ ']' :: ']' :: rest).drop 12 = ']' :: ']' :: rest := List.drop_left' hl
    have hd14 : (ds ++ ']' :: ']' :: rest).drop 14 = rest := by
      have h2 : (14 : Nat) = 12 + 2 := rfl
      rw [h2, ← List.drop_drop, hd]
      rfl
    unfold tryTok
    rw [hdrop, ht, hd, hd14]
    rw [if_pos ⟨rfl, hl, ha, rfl⟩]

theorem tryTok_some_len {s ds rest : Str} (h : tryTok s = some (ds, rest)) :
    s.length = rest.length + 16 := by
  obtain ⟨hl, _, rfl⟩ := tryTok_eq_some.mp h
  simp [hl]
  omega

theorem tryTok_mono {s1 ds r : Str} (s2 : Str) (h : tryTok s1 = some (ds, r)) :
    tryTok (s1 ++ s2) = some (ds, r ++ s2) := by
  obtain ⟨hl, ha, rfl⟩ := tryTok_eq_some.mp h
  apply tryTok_eq_some.mpr
  refine ⟨hl, ha, ?_⟩
  simp

theorem ilsF_congr (dir : List Str) :
    ∀ f1 f2 s, s.length ≤ f1 → s.length ≤ f2 → ilsF dir f1 s = ilsF dir f2 s := by
  intro f1
  induction f1 with
  | zero =>
    intro f2 s h1 _
    have : s = [] := List.length_eq_zero.mp (Nat.le_zero.mp h1)
    subst this
    cases f2 <;> rfl
  | succ f ih =>
    intro f2 s h1 h2
    cases f2 with
    | zero =>
      have : s = [] := List.length_eq_zero.mp (Nat.le_zero.mp h2)
      subst this
      rfl
    | succ f2' =>
      cases s with
      | nil => rfl
      | cons c cs =>
        rcases ht : tryTok (c :: cs) with _ | ⟨ds, rest⟩
        · simp only [ilsF, ht]
          have hcs1 : cs.length ≤ f := by simp at h1; omega
          have hcs2 : cs.length ≤ f2' := by simp at h2; omega
          rw [ih f2' cs hcs1 hcs2]
        · simp only [ilsF, ht]
          have hrl := tryTok_some_len ht
          have hr1 : rest.length ≤ f := by simp at h1 hrl; omega
          have hr2 : rest.length ≤ f2' := by simp at h2 hrl; omega
          rw [ih f2' rest hr1 hr2]

theorem ilsF_succ_tok (dir : List Str) (f : Nat) (s ds rest : Str)
    (ht : tryTok s = some (ds, rest)) (hs : s ≠ []) :
    ilsF dir (f + 1) s = replace_id_link dir ds ++ ilsF dir f rest := by
  cases s with
  | nil => exact absurd rfl hs
  | cons c cs => simp only [ilsF, ht]

theorem ilsF_succ_none (dir : List Str) (f : Nat) (c : Char) (cs : Str)
    (ht : tryTok (c :: cs) = none) :
    ilsF dir (f + 1) (c :: cs) = c :: ilsF dir f cs := by
  simp only [ilsF, ht]

theorem idLinkSub_cons_none (dir : List Str) (c : Char) (cs : Str)
    (h : tryTok (c :: cs) = none) : idLinkSub dir (c :: cs) = c :: idLinkSub dir cs := by
  unfold idLinkSub
  have hl : (c :: cs).length = cs.length + 1 := rfl
  rw [hl]
  exact ilsF_succ_none dir cs.length c cs h

theorem idLinkSub_tok (dir : List Str) (ds rest : Str) (hl : ds.length = 12)
    (ha : ds.all Char.isDigit = true) :
    idLinkSub dir ('[' :: '[' :: (ds ++ ']' :: ']' :: rest))
      = replace_id_link dir ds ++ idLinkSub dir rest := by
  have ht : tryTok ('[' :: '[' :: (ds ++ ']' :: ']' :: rest)) = some (ds, rest) :=
    tryTok_eq_some.mpr ⟨hl, ha, rfl⟩
  unfold idLinkSub
  have hlen : ('[' :: '[' :: (ds ++ ']' :: ']' :: rest)).length = (rest.length + 15) + 1 := by
    have := tryTok_some_len ht
    omega
  rw [hlen]
  rw [ilsF_succ_tok dir (rest.length + 15) _ ds rest ht (by simp)]
  congr 1
  exact ilsF_congr dir (rest.length + 15) rest.length rest (by omega) (le_refl _)

theorem idLinkSub_no_tok (dir : List Str) (s : Str) (h : hasTok s = false) :
    idLinkSub dir s = s := by
  induction s with
  | nil => rfl
  | cons c cs ih =>
    unfold hasTok at h
    rw [Bool.or_eq_false_iff] at h
    have hnone : tryTok (c :: cs) = none := by
      rcases ht : tryTok (c :: cs) with _ | pr
      · rfl
      · rw [ht] at h
        exact absurd h.1 (by simp)
    rw [idLinkSub_cons_none dir c cs hnone, ih h.2]

theorem mem_of_getLast? {α} {l : List α} {a : α} (h : l.getLast? = some a) : a ∈ l := by
  induction l with
  | nil => exact absurd h (by simp)
  | cons b t ih =>
    rw [getLast?_cons_or] at h
    rcases ht : t.getLast? with _ | x
    · rw [ht] at h
      injection h with h2
      subst h2
      exact List.mem_cons_self _ _
    · rw [ht] at h
      injection h with h2
      subst h2
      exact List.mem_cons_of_mem _ (ih ht)


/-- A `re.sub` scan distributes over a split placed right after a newline:
no `\[\[(\d{12})\]\]` match contains a newline, so no match crosses the
boundary. -/
theorem idLinkSub_append (dir : List Str) :
    ∀ s1 s2 : Str, s1.getLast? = some '\n' →
      idLinkSub dir (s1 ++ s2) = idLinkSub dir s1 ++ idLinkSub dir s2 := by
  have main : ∀ n : Nat, ∀ s1 s2 : Str, s1.length ≤ n → s1.getLast? = some '\n' →
      idLinkSub dir (s1 ++ s2) = idLinkSub dir s1 ++ idLinkSub dir s2 := by
    intro n
    induction n with
    | zero =>
      intro s1 s2 hl hlast
      have hnil : s1 = [] := List.length_eq_zero.mp (Nat.le_zero.mp hl)
      subst hnil
      exact absurd hlast (by simp)
    | succ n ih =>
      intro s1 s2 hl hlast
      cases s1 with
      | nil => exact absurd hlast (by simp)
      | cons c cs =>
        rcases ht : tryTok ((c :: cs) ++ s2) with _ | ⟨ds, rest⟩
        · have htnone : tryTok (c :: cs) = none := by
            rcases ht2 : tryTok (c :: cs) with _ | ⟨ds2, r2⟩
            · rfl
            · rw [tryTok_mono s2 ht2] at ht
              exact absurd ht (by simp)
          have e1 : idLinkSub dir ((c :: cs) ++ s2) = c :: idLinkSub dir (cs ++ s2) := by
            rw [List.cons_append]
            exact idLinkSub_cons_none dir c (cs ++ s2) (by rw [← List.cons_append]; exact ht)
          rw [e1, idLinkSub_cons_none dir c cs htnone]
          cases cs with
          | nil =>
            have hc : c = '\n' := by simpa using hlast
            subst hc
            simp [idLinkSub, ilsF]
          | cons d dt =>
            have hlast2 : (d :: dt).getLast? = some '\n' := by
              rw [List.getLast?_cons_cons] at hlast
              exact hlast
            have hrec := ih (d :: dt) s2 (by simp at hl ⊢; omega) hlast2
            rw [hrec, List.cons_append]
        · obtain ⟨h12, hall, hshape⟩ := tryTok_eq_some.mp ht
          have hshape2 : (c :: cs) ++ s2 = ('[' :: '[' :: (ds ++ [']', ']'])) ++ rest := by
            rw [hshape]
            simp
          have htoklen : ('[' :: '[' :: (ds ++ [']', ']'])).length = 16 := by
            simp [h12]
          by_cases hlen16 : 16 ≤ (c :: cs).length
          · -- the match lies entirely inside `s1`
            have htake : (c :: cs).take 16 = '[' :: '[' :: (ds ++ [']', ']']) := by
              have h1 : ((c :: cs) ++ s2).take 16
                  = (c :: cs).take 16 ++ s2.take (16 - (c :: cs).length) :=
                List.take_append_eq_append_take
              have h2 : (16 : Nat) - (c :: cs).length = 0 := by omega
              rw [h2] at h1
              simp only [List.take_zero, List.append_nil] at h1
              rw [← h1, hshape2, List.take_left' htoklen]
            have hdrop : rest = (c :: cs).drop 16 ++ s2 := by
              have h1 : ((c :: cs) ++ s2).drop 16
                  = (c :: cs).drop 16 ++ s2.drop (16 - (c :: cs).length) :=
                List.drop_append_eq_append_drop
              have h2 : (16 : Nat) - (c :: cs).length = 0 := by omega
              rw [h2] at h1
              simp only [List.drop_zero] at h1
              rw [← h1, hshape2, List.drop_left' htoklen]
            set t := (c :: cs).drop 16 with hts
            have hs1decomp : c :: cs = ('[' :: '[' :: (ds ++ [']', ']'])) ++ t := by
              conv_lhs => rw [← List.take_append_drop 16 (c :: cs)]
              rw [htake]
            have htne : t ≠ [] := by
              intro hnil
              rw [hnil, List.append_nil] at hs1decomp
              rw [hs1decomp] at hlast
              have h2 : ('[' :: '[' :: (ds ++ [']', ']']))
                  = (('[' :: '[' :: ds) ++ [']', ']'] : Str) := by simp
              rw [h2, getLast?_append_right _ (by simp)] at hlast
              exact absurd hlast (by decide)
            have hlast3 : t.getLast? = some '\n' := by
              rw [hs1decomp, getLast?_append_right _ htne] at hlast
              exact hlast
            have htlen : t.length ≤ n := by
              have hd : t.length = (c :: cs).length - 16 := by
                rw [hts]
                exact List.length_drop 16 (c :: cs)
              simp at hd hl hlen16
              omega
            have hs1cons : c :: cs = '[' :: '[' :: (ds ++ ']' :: ']' :: t) := by
              rw [hs1decomp]
              simp
            rw [hs1cons]
            have hL : ('[' :: '[' :: (ds ++ ']' :: ']' :: t)) ++ s2
                = '[' :: '[' :: (ds ++ ']' :: ']' :: (t ++ s2)) := by simp
            rw [hL, idLinkSub_tok dir ds (t ++ s2) h12 hall,
              idLinkSub_tok dir ds t h12 hall, ih t s2 htlen hlast3, List.append_assoc]
          · exfalso
            have hmem : '\n' ∈ (c :: cs) := mem_of_getLast? hlast
            have heq : c :: cs = (('[' :: '[' :: (ds ++ [']', ']'])).take (c :: cs).length) := by
              have h1 : ((c :: cs) ++ s2).take (c :: cs).length = c :: cs :=
                List.take_left _ _
              rw [hshape2, List.take_append_eq_append_take] at h1
              have h2 : ((c :: cs).length - ('[' :: '[' :: (ds ++ [']', ']'])).length) = 0 := by
                rw [htoklen]
                omega
              rw [h2] at h1
              simp only [List.take_zero, List.append_nil] at h1
              exact h1.symm
            rw [heq] at hmem
            have hmem2 : '\n' ∈ ('[' :: '[' :: (ds ++ [']', ']'])) :=
              List.take_subset _ _ hmem
            simp only [List.mem_cons, List.mem_append] at hmem2
            rcases hmem2 with h | h | h | h
            · exact absurd h (by decide)
            · exact absurd h (by decide)
            · have hdig := List.all_eq_true.mp hall '\n' h
              exact absurd hdig (by decide)
            · simp at h
  intro s1 s2 h
  exact main s1.length s1 s2 (le_refl _) h

/-- Every element except possibly the last ends with a newline: the shape of
`splitlines(keepends=True)` output. -/
def LinesInv : List Str → Prop
  | [] => True
  | l :: ls => (ls = [] ∨ l.getLast? = some '\n') ∧ LinesInv ls

theorem linesInv_slGo (cur : Str) (s : Str) : LinesInv (slGo cur s) := by
  induction s generalizing cur with
  | nil =>
    unfold slGo
    by_cases h : cur.isEmpty = true
    · rw [if_pos h]
      trivial
    · rw [if_neg h]
      exact ⟨Or.inl rfl, trivial⟩
  | cons c cs ih =>
    unfold slGo
    by_cases h : c = '\n'
    · rw [if_pos h]
      refine ⟨Or.inr ?_, ih []⟩
      rw [getLast?_append_right _ (by simp)]
      rfl
    · rw [if_neg h]
      exact ih (c :: cur)

theorem linesInv_splitKeepNL (s : Str) : LinesInv (splitKeepNL s) :=
  linesInv_slGo [] s

theorem linesInv_filter (p : Str → Bool) :
    ∀ ls, LinesInv ls → LinesInv (ls.filter p) := by
  intro ls
  induction ls with
  | nil => intro _; trivial
  | cons l t ih =>
    intro h
    obtain ⟨h1, h2⟩ := h
    by_cases hp : p l = true
    · rw [List.filter_cons_of_pos hp]
      refine ⟨?_, ih h2⟩
      rcases h1 with h1 | h1
      · subst h1
        exact Or.inl rfl
      · exact Or.inr h1
    · rw [List.filter_cons_of_neg hp]
      exact ih h2

theorem linesInv_append_right : ∀ a b : List Str, LinesInv (a ++ b) → LinesInv b := by
  intro a
  induction a with
  | nil => exact fun b h => h
  | cons x t ih => exact fun b h => ih b h.2

theorem linesInv_decomp (P : List Str) (l : Str) (S : List Str)
    (h : LinesInv (P ++ l :: S)) :
    (∀ p ∈ P, p.getLast? = some '\n') ∧ (S ≠ [] → l.getLast? = some '\n') := by
  induction P with
  | nil =>
    refine ⟨by simp, ?_⟩
    intro hS
    rcases h.1 with h1 | h1
    · exact absurd h1 hS
    · exact h1
  | cons p P' ih =>
    obtain ⟨h1, h2⟩ := h
    have hp : p.getLast? = some '\n' := by
      rcases h1 with h1 | h1
      · exact absurd h1 (by simp)
      · exact h1
    obtain ⟨ha, hb⟩ := ih h2
    refine ⟨?_, hb⟩
    intro q hq
    rcases List.mem_cons.mp hq with rfl | hq2
    · exact hp
    · exact ha q hq2

theorem idLinkSub_flatten_append (dir : List Str) :
    ∀ P : List Str, ∀ t : Str, (∀ p ∈ P, p.getLast? = some '\n') →
      idLinkSub dir (P.flatten ++ t) = idLinkSub dir P.flatten ++ idLinkSub dir t := by
  intro P
  induction P with
  | nil =>
    intro t _
    simp [idLinkSub, ilsF]
  | cons p P' ih =>
    intro t hP
    have hp : p.getLast? = some '\n' := hP p (List.mem_cons_self _ _)
    have hrest : ∀ q ∈ P', q.getLast? = some '\n' :=
      fun q hq => hP q (List.mem_cons_of_mem _ hq)
    rw [List.flatten_cons, List.append_assoc, idLinkSub_append dir p _ hp,
      idLinkSub_append dir p _ hp, ih t hrest, List.append_assoc]

/-- A body line that is not stripped as a backlink and contains no 12-digit
bracketed token appears byte-for-byte, as one contiguous block, in the body
text `convert_note` writes. -/
theorem noteBody_reproduces (dir : List Str) (lines : List Str) (line : Str)
    (hinv : LinesInv lines)
    (hmem : line ∈ (parse_metadata lines).2)
    (hbl : backlinkMatch line = false)
    (htok : hasTok line = false) :
    ∃ pre post, noteBody dir lines = pre ++ line ++ post := by
  have hbodyinv : LinesInv (parse_metadata lines).2 := by
    obtain ⟨pre0, hpre0⟩ := parse_metadata_snd_suffix lines
    exact linesInv_append_right pre0 _ (hpre0 ▸ hinv)
  have hmemf : line ∈ stripBacklinks (parse_metadata lines).2 := by
    unfold stripBacklinks
    rw [List.mem_filter]
    exact ⟨hmem, by rw [hbl]; rfl⟩
  have hfinv : LinesInv (stripBacklinks (parse_metadata lines).2) :=
    linesInv_filter _ _ hbodyinv
  obtain ⟨P, S, hPS⟩ := List.append_of_mem hmemf
  rw [hPS] at hfinv
  obtain ⟨hP, hS⟩ := linesInv_decomp P line S hfinv
  refine ⟨idLinkSub dir P.flatten, idLinkSub dir S.flatten, ?_⟩
  unfold noteBody
  rw [hPS, List.flatten_append, List.flatten_cons,
    idLinkSub_flatten_append dir P _ hP, List.append_assoc]
  congr 1
  cases hSnil : S with
  | nil =>
    subst hSnil
    simp only [List.flatten_nil, List.append_nil]
    rw [idLinkSub_no_tok dir line htok]
    have hnil : idLinkSub dir ([] : Str) = [] := rfl
    rw [hnil, List.append_nil]
  | cons s0 st =>
    have hline : line.getLast? = some '\n' := hS (by rw [hSnil]; simp)
    rw [← hSnil, idLinkSub_append dir line S.flatten hline,
      idLinkSub_no_tok dir line htok]

/-!  ## Backlink pattern lemmas  -/

theorem pyStrip_of_decomp {w1 mid w3 : Str} (h1 : w1.all pyIsSpace = true)
    (h3 : w3.all pyIsSpace = true)
    (hhead : ∀ c, mid.head? = some c → pyIsSpace c = false)
    (hlastm : ∀ c, mid.getLast? = some c → pyIsSpace c = false) :
    pyStrip (w1 ++ mid ++ w3) = mid := by
  unfold pyStrip
  rw [List.append_assoc, dropWhile_all_append _ h1]
  cases hm : mid with
  | nil =>
    subst hm
    simp only [List.nil_append]
    have hw3 : w3.dropWhile pyIsSpace = [] := by
      have := dropWhile_all_append (p := pyIsSpace) (a := w3) [] h3
      simpa using this
    rw [hw3]
    rfl
  | cons m0 mt =>
    have hm0 : pyIsSpace m0 = false := by
      apply hhead
      rw [hm]
      rfl
    rw [← hm]
    have hdw : (mid ++ w3).dropWhile pyIsSpace = mid ++ w3 := by
      rw [hm, List.cons_append, List.dropWhile_cons_of_neg (by rw [hm0]; simp)]
    rw [hdw, List.reverse_append, dropWhile_all_append _ (by simpa using h3)]
    cases hmr : mid.reverse with
    | nil =>
      rw [List.reverse_eq_nil_iff] at hmr
      rw [hm] at hmr
      exact absurd hmr (by simp)
    | cons x r2 =>
      have hx : mid.getLast? = some x := by
        rw [← List.head?_reverse, hmr]
        rfl
      have hxs : pyIsSpace x = false := hlastm x hx
      rw [List.dropWhile_cons_of_neg (by rw [hxs]; simp), ← hmr, List.reverse_reverse]

theorem pyStrip_decomp (l : Str) : ∃ w1 w3 : Str,
    w1.all pyIsSpace = true ∧ w3.all pyIsSpace = true ∧ l = w1 ++ pyStrip l ++ w3 := by
  refine ⟨l.takeWhile pyIsSpace,
    ((l.dropWhile pyIsSpace).reverse.takeWhile pyIsSpace).reverse, ?_, ?_, ?_⟩
  · exact List.all_takeWhile
  · have := List.all_takeWhile (l := (l.dropWhile pyIsSpace).reverse) (p := pyIsSpace)
    rw [List.all_eq_true] at this ⊢
    intro x hx
    exact this x (by simpa using hx)
  · have hsplit2 : l.dropWhile pyIsSpace
        = pyStrip l ++ ((l.dropWhile pyIsSpace).reverse.takeWhile pyIsSpace).reverse := by
      unfold pyStrip
      conv_lhs => rw [← List.reverse_reverse (l.dropWhile pyIsSpace)]
      conv_lhs => rw [← List.takeWhile_append_dropWhile (p := pyIsSpace)
        (l := (l.dropWhile pyIsSpace).reverse)]
      rw [List.reverse_append]
    conv_lhs => rw [← List.takeWhile_append_dropWhile (p := pyIsSpace) (l := l)]
    conv_lhs => rw [hsplit2]
    rw [List.append_assoc]

theorem take_takeWhile_length {α} (p : α → Bool) (l : List α) :
    l.take (l.takeWhile p).length = l.takeWhile p := by
  have h := @List.take_left' _ (l.takeWhile p) (l.dropWhile p) _ rfl
  rwa [List.takeWhile_append_dropWhile] at h

theorem blAfterLabel_eq_true_iff {r : Str} :
    blAfterLabel r = true ↔ ∃ w2 ds w3 : Str,
      w2.all pyIsSpace = true ∧ ds ≠ [] ∧ ds.all Char.isDigit = true
        ∧ w3.all pyIsSpace = true
        ∧ r = w2 ++ ('[' :: '[' :: (ds ++ ']' :: ']' :: w3)) := by
  constructor
  · intro h
    unfold blAfterLabel at h
    simp only [] at h
    by_cases h2 : (r.dropWhile pyIsSpace).take 2 = ['[', '[']
    · rw [if_pos h2] at h
      by_cases he : (((r.dropWhile pyIsSpace).drop 2).takeWhile Char.isDigit).isEmpty = true
      · rw [if_pos he] at h
        exact absurd h (by simp)
      · rw [if_neg he] at h
        by_cases h3 : ((((r.dropWhile pyIsSpace).drop 2).drop
            (((r.dropWhile pyIsSpace).drop 2).takeWhile Char.isDigit).length).take 2)
            = [']', ']']
        · rw [if_pos h3] at h
          refine ⟨r.takeWhile pyIsSpace,
            ((r.dropWhile pyIsSpace).drop 2).takeWhile Char.isDigit,
            ((((r.dropWhile pyIsSpace).drop 2).drop
              (((r.dropWhile pyIsSpace).drop 2).takeWhile Char.isDigit).length).drop 2),
            List.all_takeWhile, by simpa using he, List.all_takeWhile, h, ?_⟩
          conv_lhs => rw [← List.takeWhile_append_dropWhile (p := pyIsSpace) (l := r)]
          congr 1
          conv_lhs => rw [← List.take_append_drop 2 (r.dropWhile pyIsSpace)]
          rw [h2]
          conv_lhs => rw [← List.take_append_drop
            ((((r.dropWhile pyIsSpace).drop 2).takeWhile Char.isDigit).length)
            ((r.dropWhile pyIsSpace).drop 2)]
          rw [take_takeWhile_length]
          conv_lhs => rw [← List.take_append_drop 2
            (((r.dropWhile pyIsSpace).drop 2).drop
              (((r.dropWhile pyIsSpace).drop 2).takeWhile Char.isDigit).length)]
          rw [h3]
          rfl
        · rw [if_neg h3] at h
          exact absurd h (by simp)
    · rw [if_neg h2] at h
      exact absurd h (by simp)
  · rintro ⟨w2, ds, w3, hw2, hne, hds, hw3, rfl⟩
    unfold blAfterLabel
    have hdw : (w2 ++ ('[' :: '[' :: (ds ++ ']' :: ']' :: w3))).dropWhile pyIsSpace
        = '[' :: '[' :: (ds ++ ']' :: ']' :: w3) := by
      rw [dropWhile_all_append _ hw2, List.dropWhile_cons_of_neg (by decide)]
    rw [hdw]
    simp only []
    have htk : ('[' :: '[' :: (ds ++ ']' :: ']' :: w3)).take 2 = ['[', '['] := rfl
    have hdrop2 : ('[' :: '[' :: (ds ++ ']' :: ']' :: w3)).drop 2 = ds ++ ']' :: ']' :: w3 := rfl
    rw [htk, if_pos rfl, hdrop2]
    have htw : (ds ++ ']' :: ']' :: w3).takeWhile Char.isDigit = ds := by
      rw [takeWhile_all_append _ hds, List.takeWhile_cons_of_neg (by decide), List.append_nil]
    rw [htw]
    rw [if_neg (by simpa using hne)]
    have hdl : (ds ++ ']' :: ']' :: w3).drop ds.length = ']' :: ']' :: w3 :=
      List.drop_left' rfl
    rw [hdl]
    have hcc : List.take 2 (']' :: ']' :: w3) = [']', ']'] := rfl
    rw [if_pos hcc]
    have hd2 : List.drop 2 (']' :: ']' :: w3) = w3 := rfl
    rw [hd2]
    exact hw3

/-- The specification's reading of the backlink pattern: after trimming
surrounding whitespace, the whole line is the case-sensitive label
`Backlinks:` or `Backlink:` followed (possibly after whitespace) by a
double-bracket-wrapped nonempty digit sequence. -/
def isBacklinkLineSpec (line : Str) : Prop :=
  ∃ lbl ws ds : Str, (lbl = "Backlinks:".toList ∨ lbl = "Backlink:".toList)
    ∧ ws.all pyIsSpace = true ∧ ds ≠ [] ∧ ds.all Char.isDigit = true
    ∧ pyStrip line = lbl ++ ws ++ ('[' :: '[' :: (ds ++ [']', ']']))

theorem not_backlinks_of_backlink (X : Str) :
    ("Backlinks:".toList).isPrefixOf ("Backlink:".toList ++ X) = false := by
  cases h : ("Backlinks:".toList).isPrefixOf ("Backlink:".toList ++ X)
  · rfl
  · exfalso
    rw [isPrefixOf_eq_true_iff] at h
    obtain ⟨t, ht⟩ := h
    simp at ht

theorem backlinkMatch_iff {line : Str} :
    backlinkMatch line = true ↔ isBacklinkLineSpec line := by
  constructor
  · intro h
    unfold backlinkMatch at h
    simp only [] at h
    by_cases hP : ("Backlinks:".toList).isPrefixOf (line.dropWhile pyIsSpace) = true
    · rw [if_pos hP] at h
      obtain ⟨t, ht⟩ := isPrefixOf_eq_true_iff.mp hP
      have hdropt : (line.dropWhile pyIsSpace).drop 10 = t := by
        rw [ht]
        exact List.drop_left' rfl
      rw [hdropt] at h
      obtain ⟨w2, ds, w3, hw2, hne, hds, hw3, rfl⟩ := blAfterLabel_eq_true_iff.mp h
      refine ⟨"Backlinks:".toList, w2, ds, Or.inl rfl, hw2, hne, hds, ?_⟩
      have hline : line = line.takeWhile pyIsSpace
          ++ ("Backlinks:".toList ++ w2 ++ ('[' :: '[' :: (ds ++ [']', ']'])))
          ++ w3 := by
        conv_lhs => rw [← List.takeWhile_append_dropWhile (p := pyIsSpace) (l := line)]
        rw [ht]
        simp
      rw [hline, pyStrip_of_decomp List.all_takeWhile hw3 (by intro c hc; injection hc with h2; subst h2; decide) ?_]
      · intro c hc
        have h2 : ("Backlinks:".toList ++ w2 ++ ('[' :: '[' :: (ds ++ [']', ']'])))
            = ("Backlinks:".toList ++ w2 ++ ('[' :: '[' :: ds)) ++ [']', ']'] := by simp
        rw [h2, getLast?_append_right _ (by simp)] at hc
        injection hc with h3
        subst h3
        decide
    · rw [if_neg hP] at h
      by_cases hQ : ("Backlink:".toList).isPrefixOf (line.dropWhile pyIsSpace) = true
      · rw [if_pos hQ] at h
        obtain ⟨t, ht⟩ := isPrefixOf_eq_true_iff.mp hQ
        have hdropt : (line.dropWhile pyIsSpace).drop 9 = t := by
          rw [ht]
          exact List.drop_left' rfl
        rw [hdropt] at h
        obtain ⟨w2, ds, w3, hw2, hne, hds, hw3, rfl⟩ := blAfterLabel_eq_true_iff.mp h
        refine ⟨"Backlink:".toList, w2, ds, Or.inr rfl, hw2, hne, hds, ?_⟩
        have hline : line = line.takeWhile pyIsSpace
            ++ ("Backlink:".toList ++ w2 ++ ('[' :: '[' :: (ds ++ [']', ']'])))
            ++ w3 := by
          conv_lhs => rw [← List.takeWhile_append_dropWhile (p := pyIsSpace) (l := line)]
          rw [ht]
          simp
        rw [hline, pyStrip_of_decomp List.all_takeWhile hw3 (by intro c hc; injection hc with h2; subst h2; decide) ?_]
        · intro c hc
          have h2 : ("Backlink:".toList ++ w2 ++ ('[' :: '[' :: (ds ++ [']', ']'])))
              = ("Backlink:".toList ++ w2 ++ ('[' :: '[' :: ds)) ++ [']', ']'] := by simp
          rw [h2, getLast?_append_right _ (by simp)] at hc
          injection hc with h3
          subst h3
          decide
      · rw [if_neg hQ] at h
        exact absurd h (by simp)
  · rintro ⟨lbl, ws, ds, hlbl, hws, hne, hds, hstrip⟩
    obtain ⟨w1, w3, hw1, hw3, hline⟩ := pyStrip_decomp line
    rw [hstrip] at hline
    unfold backlinkMatch
    simp only []
    have hdw : line.dropWhile pyIsSpace
        = (lbl ++ ws ++ ('[' :: '[' :: (ds ++ [']', ']']))) ++ w3 := by
      conv_lhs => rw [hline]
      rw [List.append_assoc, dropWhile_all_append _ hw1]
      rcases hlbl with rfl | rfl
      · have hB : ("Backlinks:".toList : Str) = 'B' :: "acklinks:".toList := rfl
        rw [hB]
        simp only [List.cons_append, List.append_assoc]
        rw [List.dropWhile_cons_of_neg (by decide)]
      · have hB : ("Backlink:".toList : Str) = 'B' :: "acklink:".toList := rfl
        rw [hB]
        simp only [List.cons_append, List.append_assoc]
        rw [List.dropWhile_cons_of_neg (by decide)]
    rcases hlbl with rfl | rfl
    · have hpre : ("Backlinks:".toList).isPrefixOf (line.dropWhile pyIsSpace) = true := by
        rw [hdw]
        apply isPrefixOf_eq_true_iff.mpr
        exact ⟨ws ++ ('[' :: '[' :: (ds ++ [']', ']'])) ++ w3, by simp⟩
      rw [if_pos hpre]
      have hdrop : (line.dropWhile pyIsSpace).drop 10
          = ws ++ ('[' :: '[' :: (ds ++ ']' :: ']' :: w3)) := by
        rw [hdw]
        have h2 : (("Backlinks:".toList ++ ws ++ ('[' :: '[' :: (ds ++ [']', ']']))) ++ w3)
            = "Backlinks:".toList ++ (ws ++ ('[' :: '[' :: (ds ++ ']' :: ']' :: w3))) := by
          simp
        rw [h2]
        exact List.drop_left' rfl
      rw [hdrop]
      exact blAfterLabel_eq_true_iff.mpr ⟨ws, ds, w3, hws, hne, hds, hw3, rfl⟩
    · have hnpre : ("Backlinks:".toList).isPrefixOf (line.dropWhile pyIsSpace) = false := by
        rw [hdw]
        have h2 : (("Backlink:".toList ++ ws ++ ('[' :: '[' :: (ds ++ [']', ']']))) ++ w3)
            = "Backlink:".toList ++ (ws ++ ('[' :: '[' :: (ds ++ [']', ']'])) ++ w3) := by
          simp
        rw [h2]
        exact not_backlinks_of_backlink _
      rw [if_neg (by rw [hnpre]; exact Bool.false_ne_true)]
      have hpre : ("Backlink:".toList).isPrefixOf (line.dropWhile pyIsSpace) = true := by
        rw [hdw]
        apply isPrefixOf_eq_true_iff.mpr
        exact ⟨ws ++ ('[' :: '[' :: (ds ++ [']', ']'])) ++ w3, by simp⟩
      rw [if_pos hpre]
      have hdrop : (line.dropWhile pyIsSpace).drop 9
          = ws ++ ('[' :: '[' :: (ds ++ ']' :: ']' :: w3)) := by
        rw [hdw]
        have h2 : (("Backlink:".toList ++ ws ++ ('[' :: '[' :: (ds ++ [']', ']']))) ++ w3)
            = "Backlink:".toList ++ (ws ++ ('[' :: '[' :: (ds ++ ']' :: ']' :: w3))) := by
          simp
        rw [h2]
        exact List.drop_left' rfl
      rw [hdrop]
      exact blAfterLabel_eq_true_iff.mpr ⟨ws, ds, w3, hws, hne, hds, hw3, rfl⟩

/-!  ## Driver lemmas  -/

theorem convert_note_error_iff (dir : List Str) (fname content : Str) (e : PyErr) :
    convert_note dir fname content = .error e ↔ parse_filename fname = .error e := by
  unfold convert_note
  rcases h : parse_filename fname with e2 | ⟨fid, ftitle⟩ <;> simp

theorem convert_note_ok (dir : List Str) (fname content fid ftitle : Str)
    (h : parse_filename fname = .ok (fid, ftitle)) :
    convert_note dir fname content
      = .ok (build_frontmatter (noteMd fid ftitle (splitKeepNL content))
          ++ '\n' :: noteBody dir (splitKeepNL content)) := by
  unfold convert_note
  rw [h]

theorem processFile_copied_iff (dir : List Str) (fname content : Str) :
    processFile dir fname content = .ok (content, false)
      ↔ parse_filename fname = .error .valueError := by
  unfold processFile catchNaming
  rcases hc : convert_note dir fname content with e | out
  · cases e
    · simp only []
      constructor
      · intro _
        exact (convert_note_error_iff dir fname content .valueError).mp hc
      · intro _
        trivial
    · simp only []
      constructor
      · intro h
        exact absurd h (by simp)
      · intro h
        have h1 := (convert_note_error_iff dir fname content .otherError).mp hc
        rw [h1] at h
        exact absurd h (by simp)
  · simp only []
    constructor
    · intro h
      injection h with h2
      injection h2 with h3 h4
      exact absurd h4 (by simp)
    · intro h
      have h2 := (convert_note_error_iff dir fname content .valueError).mpr h
      rw [hc] at h2
      exact absurd h2 (by simp)

theorem processFile_converted (dir : List Str) (fname content fid ftitle : Str)
    (h : parse_filename fname = .ok (fid, ftitle)) :
    processFile dir fname content
      = .ok (build_frontmatter (noteMd fid ftitle (splitKeepNL content))
          ++ '\n' :: noteBody dir (splitKeepNL content), true) := by
  unfold processFile catchNaming
  rw [convert_note_ok dir fname content fid ftitle h]

theorem catchNaming_other_iff (r : Except PyErr Str) (orig : Str) :
    catchNaming r orig = .error .otherError ↔ r = .error .otherError := by
  unfold catchNaming
  rcases r with e | out
  · cases e
    · simp
    · simp
  · simp

theorem mainRun_ignores_prev (input : InDir) (prev prev' : Option OutDir) :
    mainRun input prev = mainRun input prev' := by
  unfold mainRun
  cases prev <;> cases prev' <;> rfl

/-!  ## Claims  -/

/-- C1 (amended): for every double-bracket token of exactly 12 digits, the id
is resolved to the stem of the first directory entry matching
`<id>*.md`; when such an entry exists and its stem differs from the id the
token becomes `[[stem|id]]`; when no entry matches — or the resolved stem
equals the id itself, as for a file named exactly `<id>.md` — the token is
left unchanged. -/
theorem claim_C1_amended :
    (∀ (dir : List Str) (ds : Str), (∀ fn ∈ dir, globIdMd ds fn = false) →
      resolve_id_link ds dir = ds)
    ∧ (∀ (dir : List Str) (ds post : Str), ds.length = 12 → ds.all Char.isDigit = true →
        resolve_id_link ds dir ≠ ds →
        idLinkSub dir ('[' :: '[' :: (ds ++ ']' :: ']' :: post))
          = ("[[".toList) ++ resolve_id_link ds dir ++ ('|' :: ds) ++ ("]]".toList)
            ++ idLinkSub dir post)
    ∧ (∀ (dir : List Str) (ds post : Str), ds.length = 12 → ds.all Char.isDigit = true →
        resolve_id_link ds dir = ds →
        idLinkSub dir ('[' :: '[' :: (ds ++ ']' :: ']' :: post))
          = ("[[".toList) ++ ds ++ ("]]".toList) ++ idLinkSub dir post) := by
  refine ⟨?_, ?_, ?_⟩
  · intro dir ds h
    unfold resolve_id_link
    rw [List.find?_eq_none.mpr (by intro fn hfn; rw [h fn hfn]; simp)]
  · intro dir ds post hl ha hne
    rw [idLinkSub_tok dir ds post hl ha]
    unfold replace_id_link
    rw [if_pos hne]
  · intro dir ds post hl ha heq
    rw [idLinkSub_tok dir ds post hl ha]
    unfold replace_id_link
    rw [if_neg (by rw [heq]; exact fun hc => hc rfl)]

/-- C1 witness: a resolvable token with a distinct stem is rewritten to the
aliased form. -/
theorem claim_C1_witness :
    idLinkSub ["202504211559 My Note.md".toList]
        ('[' :: '[' :: ("202504211559".toList ++ ']' :: ']' :: []))
      = ("[[".toList)
        ++ resolve_id_link ("202504211559".toList) ["202504211559 My Note.md".toList]
        ++ ('|' :: "202504211559".toList) ++ ("]]".toList)
        ++ idLinkSub ["202504211559 My Note.md".toList] [] :=
  claim_C1_amended.2.1 ["202504211559 My Note.md".toList] ("202504211559".toList) []
    (by decide) (by decide) (by decide)

/-- C1 counterexample to the original claim: the file `202504211559.md`
matches the glob for id `202504211559`, yet the token is left unchanged
(the code treats an unchanged stem as "not found"), not replaced by the
compound form the claim requires. -/
theorem claim_C1_counterexample :
    globIdMd ("202504211559".toList) ("202504211559.md".toList) = true
    ∧ idLinkSub ["202504211559.md".toList] ("[[202504211559]]".toList)
        = "[[202504211559]]".toList
    ∧ ("[[202504211559]]".toList : Str) ≠ "[[202504211559|202504211559]]".toList := by
  refine ⟨by decide, by decide, by decide⟩

/-- C2: a body line is removed by backlink stripping iff, after trimming
surrounding whitespace, it consists of the label `Backlinks:` or `Backlink:`
followed by a double-bracket-wrapped digit sequence; in particular
`"Backlinks: [[202504211559]]"` is removed while
`"Backlinks: [[202504211559]] extra text"` is kept. -/
theorem claim_C2 :
    (∀ (body : List Str) (line : Str), line ∈ body →
      (line ∉ stripBacklinks body ↔ isBacklinkLineSpec line))
    ∧ stripBacklinks ["Backlinks: [[202504211559]]".toList] = []
    ∧ stripBacklinks ["Backlinks: [[202504211559]] extra text".toList]
        = ["Backlinks: [[202504211559]] extra text".toList] := by
  refine ⟨?_, by decide, by decide⟩
  intro body line hmem
  unfold stripBacklinks
  rw [List.mem_filter]
  constructor
  · intro h
    by_cases hb : backlinkMatch line = true
    · exact backlinkMatch_iff.mp hb
    · exact absurd ⟨hmem, by rw [bool_not_true hb]; rfl⟩ h
  · intro h hcontra
    have hb := backlinkMatch_iff.mpr h
    rw [hb] at hcontra
    simp at hcontra

/-- C2 witness: the example backlink line is removed and satisfies the
trimmed-pattern characterization. -/
theorem claim_C2_witness :
    ("Backlinks: [[202504211559]]".toList
        ∉ stripBacklinks ["Backlinks: [[202504211559]]".toList])
    ∧ isBacklinkLineSpec ("Backlinks: [[202504211559]]".toList) := by
  have hnot : "Backlinks: [[202504211559]]".toList
      ∉ stripBacklinks ["Backlinks: [[202504211559]]".toList] := by
    rw [claim_C2.2.1]
    simp
  exact ⟨hnot, (claim_C2.1 _ _ (by simp)).mp hnot⟩

/-- Substring occurrence test (used to state "contains no recognized
metadata label"). -/
def containsStr (pat : Str) : Str → Bool
  | [] => pat.isEmpty
  | c :: cs => pat.isPrefixOf (c :: cs) || containsStr pat cs

/-- C3: a body line containing no metadata label, not matching the backlink
pattern, and containing no 12-digit bracketed token is reproduced
byte-for-byte in the output body. -/
theorem claim_C3 : ∀ (dir : List Str) (content line : Str),
    line ∈ (parse_metadata (splitKeepNL content)).2 →
    containsStr ("Title:".toList) line = false →
    containsStr ("Date:".toList) line = false →
    containsStr ("Keywords:".toList) line = false →
    backlinkMatch line = false →
    hasTok line = false →
    ∃ pre post, noteBody dir (splitKeepNL content) = pre ++ line ++ post := by
  intro dir content line hmem _ _ _ hbl htok
  exact noteBody_reproduces dir _ line (linesInv_splitKeepNL content) hmem hbl htok

/-- C3 witness: a plain body line survives conversion verbatim. -/
theorem claim_C3_witness : ∃ pre post,
    noteBody [] (splitKeepNL ("hello\n".toList)) = pre ++ "hello\n".toList ++ post :=
  claim_C3 [] ("hello\n".toList) ("hello\n".toList) (by decide) (by decide) (by decide)
    (by decide) (by decide) (by decide)

/-- C4: with no `Keywords:` line, the body start stays at index 0 — the whole
file is the body — while `Title:`/`Date:` lines are still captured into the
metadata map (hence duplicated between header and body). -/
theorem claim_C4 : ∀ lines : List Str,
    (∀ L ∈ lines, ("Keywords:".toList).isPrefixOf L = false) →
    (parse_metadata lines).2 = lines
    ∧ ((dictGet (parse_metadata lines).1 ("title".toList)).isSome = true
        ↔ ∃ L ∈ lines, ("Title:".toList).isPrefixOf L = true)
    ∧ ((dictGet (parse_metadata lines).1 ("date".toList)).isSome = true
        ↔ ∃ L ∈ lines, ("Date:".toList).isPrefixOf L = true) := by
  intro lines h
  have hpre : preKw lines = lines := by
    unfold preKw
    apply takeWhile_all_self
    rw [List.all_eq_true]
    intro L hL
    rw [h L hL]
    rfl
  refine ⟨parse_metadata_snd_of_no_kw lines h, ?_, ?_⟩
  · rw [parseMd_title]
    unfold lastTitleVal
    rw [hpre]
    constructor
    · intro hs
      rcases hg : (lines.filter (fun L => ("Title:".toList).isPrefixOf L)).getLast?
          with _ | x
      · rw [hg] at hs
        simp at hs
      · have hxmem := mem_of_getLast? hg
        rw [List.mem_filter] at hxmem
        exact ⟨x, hxmem.1, hxmem.2⟩
    · rintro ⟨L, hL, hT⟩
      have hne : lines.filter (fun L => ("Title:".toList).isPrefixOf L) ≠ [] := by
        intro hnil
        have hmem : L ∈ lines.filter (fun L => ("Title:".toList).isPrefixOf L) :=
          List.mem_filter.mpr ⟨hL, hT⟩
        rw [hnil] at hmem
        simp at hmem
      have hgs := List.getLast?_isSome.mpr hne
      rcases hg : (lines.filter (fun L => ("Title:".toList).isPrefixOf L)).getLast?
          with _ | x
      · rw [hg] at hgs
        simp at hgs
      · rfl
  · rw [parseMd_date]
    unfold lastDateVal
    rw [hpre]
    constructor
    · intro hs
      rcases hg : (lines.filter (fun L => ("Date:".toList).isPrefixOf L)).getLast?
          with _ | x
      · rw [hg] at hs
        simp at hs
      · have hxmem := mem_of_getLast? hg
        rw [List.mem_filter] at hxmem
        exact ⟨x, hxmem.1, hxmem.2⟩
    · rintro ⟨L, hL, hT⟩
      have hne : lines.filter (fun L => ("Date:".toList).isPrefixOf L) ≠ [] := by
        intro hnil
        have hmem : L ∈ lines.filter (fun L => ("Date:".toList).isPrefixOf L) :=
          List.mem_filter.mpr ⟨hL, hT⟩
        rw [hnil] at hmem
        simp at hmem
      have hgs := List.getLast?_isSome.mpr hne
      rcases hg : (lines.filter (fun L => ("Date:".toList).isPrefixOf L)).getLast?
          with _ | x
      · rw [hg] at hgs
        simp at hgs
      · rfl

/-- C4 witness: a keywordless file keeps its `Title:` line in the body while
the title is captured. -/
theorem claim_C4_witness :
    (parse_metadata ["Title: Foo\n".toList, "body\n".toList]).2
        = ["Title: Foo\n".toList, "body\n".toList]
    ∧ ((dictGet (parse_metadata ["Title: Foo\n".toList, "body\n".toList]).1
          ("title".toList)).isSome = true
        ↔ ∃ L ∈ ["Title: Foo\n".toList, "body\n".toList],
            ("Title:".toList).isPrefixOf L = true)
    ∧ ((dictGet (parse_metadata ["Title: Foo\n".toList, "body\n".toList]).1
          ("date".toList)).isSome = true
        ↔ ∃ L ∈ ["Title: Foo\n".toList, "body\n".toList],
            ("Date:".toList).isPrefixOf L = true) :=
  claim_C4 ["Title: Foo\n".toList, "body\n".toList] (by decide)

/-- C5: the output is a marker-delimited header, a blank line, then the body;
keys are serialized in insertion order, with tags/aliases as ordered
sequences; for the example metadata lines the key order is
title, date, tags, id, aliases with the claimed values. -/
theorem claim_C5 :
    (∀ (dir : List Str) (fname content fid ftitle : Str),
      parse_filename fname = .ok (fid, ftitle) →
      convert_note dir fname content
        = .ok (("---\n".toList) ++ yamlDump (noteMd fid ftitle (splitKeepNL content))
            ++ ("---\n".toList) ++ '\n' :: noteBody dir (splitKeepNL content)))
    ∧ (∀ fid ftitle : Str,
        noteMd fid ftitle ["Title: Foo\n".toList, "Date: 2024-01-01\n".toList,
            "Keywords: #a #b\n".toList]
          = [("title".toList, .s ("Foo".toList)),
             ("date".toList, .s ("2024-01-01".toList)),
             ("tags".toList, .l ["a".toList, "b".toList]),
             ("id".toList, .s fid),
             ("aliases".toList, .l [fid])]) := by
  constructor
  · intro dir fname content fid ftitle h
    rw [convert_note_ok dir fname content fid ftitle h]
    unfold build_frontmatter
    simp [List.append_assoc]
  · intro fid ftitle
    rfl

/-- C5 witness: a concrete conversion has the header-blank-line-body layout. -/
theorem claim_C5_witness :
    convert_note [] ("1 T.md".toList) ("x".toList)
      = .ok (("---\n".toList)
          ++ yamlDump (noteMd ("1".toList) ("T".toList) (splitKeepNL ("x".toList)))
          ++ ("---\n".toList) ++ '\n' :: noteBody [] (splitKeepNL ("x".toList))) :=
  claim_C5.1 [] ("1 T.md".toList) ("x".toList) ("1".toList) ("T".toList) rfl

/-- C6: the driver's fallback copy of the unchanged file happens exactly on a
filename-parser `ValueError`; the `except ValueError` clause propagates every
other error unchanged. -/
theorem claim_C6 : ∀ (dir : List Str) (fname content : Str),
    (processFile dir fname content = .ok (content, false)
      ↔ parse_filename fname = .error .valueError)
    ∧ (∀ (r : Except PyErr Str) (orig : Str),
        catchNaming r orig = .error .otherError ↔ r = .error .otherError) :=
  fun dir fname content =>
    ⟨processFile_copied_iff dir fname content, catchNaming_other_iff⟩

/-- C6 witness: a non-conforming filename is fallback-copied verbatim. -/
theorem claim_C6_witness :
    processFile [] ("bad.md".toList) ("x".toList) = .ok ("x".toList, false) :=
  (claim_C6 [] ("bad.md".toList) ("x".toList)).1.mpr rfl

/-- C7 (amended): on success the filename parser returns the leading digit
run and the remainder after the first whitespace run truncated at the first
newline (`.*` does not match a newline); it raises `ValueError` exactly when
the stem has no nonempty digit run followed by a nonempty whitespace run. -/
theorem claim_C7_amended :
    (∀ name : Str, parseStem name = .error .valueError ↔
      ¬ ∃ ds ws rest : Str, name = ds ++ ws ++ rest ∧ ds ≠ []
        ∧ ds.all Char.isDigit = true ∧ ws ≠ [] ∧ ws.all pyIsSpace = true)
    ∧ (∀ ds ws rest : Str, ds ≠ [] → ds.all Char.isDigit = true → ws ≠ [] →
        ws.all pyIsSpace = true → (∀ c, rest.head? = some c → pyIsSpace c = false) →
        parseStem (ds ++ ws ++ rest)
          = .ok (ds, rest.takeWhile (fun c => c ≠ '\n'))) :=
  ⟨fun _ => parseStem_error_iff,
   fun _ _ _ h1 h2 h3 h4 h5 => parseStem_ok h1 h2 h3 h4 h5⟩

/-- C7 witness: a well-formed stem parses into its digit run and title. -/
theorem claim_C7_witness :
    parseStem ("1234".toList ++ " ".toList ++ "ab".toList)
      = .ok ("1234".toList, ("ab".toList).takeWhile (fun c => c ≠ '\n')) :=
  claim_C7_amended.2 ("1234".toList) (" ".toList) ("ab".toList) (by decide) (by decide)
    (by decide) (by decide)
    (by intro c hc; injection hc with h2; subst h2; decide)

/-- C7 counterexample to the original claim: for the stem `123 a\nb`
(digits, whitespace, rest `a\nb`) the parser returns title `a`, not the
whole rest verbatim: `.*` stops at the newline. -/
theorem claim_C7_counterexample :
    parse_filename ("123 a\nb.md".toList) = .ok ("123".toList, "a".toList)
    ∧ ("123 a\nb".toList : Str) = "123".toList ++ " ".toList ++ "a\nb".toList
    ∧ ("a".toList : Str) ≠ "a\nb".toList :=
  ⟨rfl, by decide, by decide⟩

/-- C8: with the output directory destroyed and rebuilt at the start of every
run, running the conversion twice on the same input yields identical output
directory contents. -/
theorem claim_C8 : ∀ (input : InDir) (prev : Option OutDir) (out1 : OutDir),
    mainRun input prev = .ok out1 → mainRun input (some out1) = .ok out1 := by
  intro input prev out1 h
  rw [mainRun_ignores_prev input (some out1) prev]
  exact h

/-- C8 witness: a one-file input converts to the same output on a rerun. -/
theorem claim_C8_witness : ∃ o : OutDir,
    mainRun ⟨[("1 a.md".toList, "x\n".toList)], none⟩ none = .ok o
    ∧ mainRun ⟨[("1 a.md".toList, "x\n".toList)], none⟩ (some o) = .ok o :=
  ⟨_, rfl, claim_C8 _ none _ rfl⟩

/-- C9: the metadata scan covers every line before the first `Keywords:`
line (all lines when there is none); the `title`/`date` fields come from the
last such labeled line scanned (later occurrences overwrite earlier ones),
as the concrete two-`Title:` example shows. -/
theorem claim_C9 :
    (∀ lines : List Str,
      dictGet (parse_metadata lines).1 ("title".toList)
          = (((preKw lines).filter (fun L => ("Title:".toList).isPrefixOf L)).getLast?).map
              (fun L => YVal.s (pyStrip (L.drop 6)))
        ∧ dictGet (parse_metadata lines).1 ("date".toList)
            = (((preKw lines).filter (fun L => ("Date:".toList).isPrefixOf L)).getLast?).map
                (fun L => YVal.s (pyStrip (L.drop 5))))
    ∧ dictGet (parse_metadata ["body\n".toList, "Title: A\n".toList,
          "Title: B\n".toList]).1 ("title".toList) = some (.s ("B".toList)) :=
  ⟨fun lines => ⟨parseMd_title lines, parseMd_date lines⟩, rfl⟩

/-- C10: a stem of digits followed by only whitespace parses with an empty
title; such a file is converted (not fallback-copied), and without a
`Title:` line its header title is the empty string. -/
theorem claim_C10 : ∀ (dir : List Str) (content ds ws : Str),
    ds ≠ [] → ds.all Char.isDigit = true → ws ≠ [] → ws.all pyIsSpace = true →
    (∀ L ∈ splitKeepNL content, ("Title:".toList).isPrefixOf L = false) →
    parseStem (ds ++ ws) = .ok (ds, [])
    ∧ parse_filename (ds ++ ws ++ (".md".toList)) = .ok (ds, [])
    ∧ (∃ out, processFile dir (ds ++ ws ++ (".md".toList)) content = .ok (out, true))
    ∧ dictGet (noteMd ds [] (splitKeepNL content)) ("title".toList) = some (.s []) := by
  intro dir content ds ws hds hdd hws hwss hnoT
  have h1 : parseStem (ds ++ ws) = .ok (ds, []) := by
    have h := @parseStem_ok ds ws [] hds hdd hws hwss (by intro c hc; simp at hc)
    simpa using h
  have hstem : pyStem (ds ++ ws ++ (".md".toList)) = ds ++ ws := by
    apply pyStem_md
    intro hnil
    rcases List.append_eq_nil.mp hnil with ⟨hd2, _⟩
    exact hds hd2
  have h2 : parse_filename (ds ++ ws ++ (".md".toList)) = .ok (ds, []) := by
    unfold parse_filename
    rw [hstem, h1]
  refine ⟨h1, h2, ⟨_, processFile_converted dir _ content ds [] h2⟩, ?_⟩
  unfold noteMd
  rw [dictGet_dictSet, if_neg (by decide), dictGet_dictSetdefault, if_pos rfl,
    dictGet_dictSet, if_neg (by decide), parseMd_title]
  have hfilt : (preKw (splitKeepNL content)).filter
      (fun L => ("Title:".toList).isPrefixOf L) = [] := by
    rw [List.filter_eq_nil_iff]
    intro L hL
    have hmem : L ∈ splitKeepNL content := by
      unfold preKw at hL
      exact List.takeWhile_subset _ hL
    rw [hnoT L hmem]
    simp
  unfold lastTitleVal
  rw [hfilt]
  rfl

/-- C10 witness: stem `1234 ` parses with an empty title; the file converts
and its header title is the empty string. -/
theorem claim_C10_witness :
    parseStem ("1234".toList ++ " ".toList) = .ok ("1234".toList, [])
    ∧ parse_filename ("1234".toList ++ " ".toList ++ (".md".toList))
        = .ok ("1234".toList, [])
    ∧ (∃ out, processFile [] ("1234".toList ++ " ".toList ++ (".md".toList))
        ("x".toList) = .ok (out, true))
    ∧ dictGet (noteMd ("1234".toList) [] (splitKeepNL ("x".toList))) ("title".toList)
        = some (.s []) :=
  claim_C10 [] ("x".toList) ("1234".toList) (" ".toList) (by decide) (by decide)
    (by decide) (by decide) (by decide)
